import Mathlib

/-!
Verification of the storage core of the Turtlebackend repository:
`src/crates/database/src/basic_db.rs`, the `SafeDatabase` implementation
for `InnerDatabase` — a `Mutex`-guarded handle over a libmdbx multi-table
environment with transaction-per-operation `write`, `read`, `read_all`
and `batch_write`.

Shallow embedding:
* keys and values are opaque byte strings (`Bytes := List Nat`);
* a table is an association list `List (Bytes × Bytes)`; libmdbx `put`
  with default flags on a non-DUPSORT table upserts, modelled by `tblPut`;
* the environment is an association list from table names to tables;
  `create_table` with default flags opens the table if present and
  creates it empty otherwise;
* every fallible libmdbx call made by the Rust code (`begin_rw_txn` /
  `begin_ro_txn`, `create_table`, `open_table`, `get`, `put`, cursor
  iteration, `commit`) may fail; a `FailSpec` injects those failures.
  An operation that hits a failure propagates the error with `?`, which
  drops (aborts) the transaction, so the environment is unchanged: the
  embedded operation returns `Except.error` and the caller keeps the old
  environment (`exceptEnv`).
* in `read` and `read_all`, a failing `open_table` is swallowed by the
  `if let Ok(table) = ...` pattern and falls through to `Ok(None)` /
  the empty map, exactly as in the source.
-/

namespace TurtleDB

/-- Opaque byte strings: keys and values of the store. -/
abbrev Bytes := List Nat

/-- A libmdbx table: an association from byte keys to byte values. -/
abbrev Table := List (Bytes × Bytes)

/-- The environment: named tables (`max_tables` capacity is irrelevant to
the claims; names are opaque strings as in the Rust `&str` table names). -/
abbrev Env := List (String × Table)

/-- Error kinds mirroring the failure points of `libmdbx::Error` as they
occur in `basic_db.rs` (spec §7: environment/transaction/table failures). -/
inductive DBError where
  | txnBegin
  | tableCreate
  | getFailed
  | putFailed
  | cursorFailed
  | commitFailed
deriving DecidableEq, Repr

/-- Failure injection for the underlying libmdbx calls of one operation:
which of the engine calls made inside the operation fail.  `putFails` is
indexed by put order within the (batch) transaction. -/
structure FailSpec where
  beginFail : Bool
  createFail : Bool
  openFail : Bool
  getFail : Bool
  putFails : List Bool
  cursorFail : Bool
  commitFail : Bool
deriving DecidableEq, Repr

/-- The fail spec where every engine call succeeds. -/
def fsNone : FailSpec := ⟨false, false, false, false, [], false, false⟩

/-- A fail spec where only `create_table` fails (e.g. the table-count
cap of 100 is exhausted): transactions begin and commit fine. -/
def fsCreateFail : FailSpec := ⟨false, true, false, false, [], false, false⟩

/-- Lookup in a table: `transaction.get(&table, key)` on the modelled
table contents. -/
def tblGet : Table → Bytes → Option Bytes
  | [], _ => none
  | (k', v) :: t, k => if k' = k then some v else tblGet t k

/-- Upsert into a table: `transaction.put(&table, key, value,
WriteFlags::default())` — last writer wins, no duplicates kept. -/
def tblPut : Table → Bytes → Bytes → Table
  | [], k, v => [(k, v)]
  | (k', v') :: t, k, v =>
    if k' = k then (k, v) :: t else (k', v') :: tblPut t k v

/-- `transaction.open_table(Some(name))`: the named table, if it exists. -/
def envGetTable : Env → String → Option Table
  | [], _ => none
  | (n, t) :: e, name => if n = name then some t else envGetTable e name

/-- Install (possibly newly created) table contents under a name at
commit time. -/
def envSetTable : Env → String → Table → Env
  | [], name, t => [(name, t)]
  | (n, t') :: e, name, t =>
    if n = name then (name, t) :: e else (n, t') :: envSetTable e name t

/-- `InnerDatabase::write` (basic_db.rs lines 53–61): lock, begin a
read-write transaction, `create_table` (open-or-create), one `put`,
`commit`.  Any failing call propagates with `?`, aborting the
transaction. -/
def write (fs : FailSpec) (e : Env) (k v : Bytes) (tbl : String) :
    Except DBError Env :=
  if fs.beginFail then .error .txnBegin
  else if fs.createFail then .error .tableCreate
  else if fs.putFails.headD false then .error .putFailed
  else if fs.commitFail then .error .commitFailed
  else .ok (envSetTable e tbl (tblPut ((envGetTable e tbl).getD []) k v))

/-- `InnerDatabase::read` (basic_db.rs lines 64–74): lock, begin a
read-only transaction; `if let Ok(table) = open_table` — a missing table
(or any `open_table` error) falls through to `Ok(None)`; otherwise
`get`, whose engine failure propagates. -/
def read (fs : FailSpec) (e : Env) (k : Bytes) (tbl : String) :
    Except DBError (Option Bytes) :=
  if fs.beginFail then .error .txnBegin
  else
    match envGetTable e tbl with
    | none => .ok none
    | some t =>
      if fs.openFail then .ok none
      else if fs.getFail then .error .getFailed
      else .ok (tblGet t k)

/-- `InnerDatabase::read_all` (basic_db.rs lines 76–93): lock, begin a
read-only transaction; a missing table (or failing `open_table`) yields
the empty map; otherwise a cursor scan folds every entry into a
`HashMap` via `insert` (upsert, modelled by `tblPut` into an initially
empty map). -/
def read_all (fs : FailSpec) (e : Env) (tbl : String) :
    Except DBError Table :=
  if fs.beginFail then .error .txnBegin
  else
    match envGetTable e tbl with
    | none => .ok []
    | some t =>
      if fs.openFail then .ok []
      else if fs.cursorFail then .error .cursorFailed
      else .ok (t.foldl (fun m kv => tblPut m kv.1 kv.2) [])

/-- The put loop of `batch_write`: one `put` per item in sequence order,
each put may fail (failure flags consumed in order). -/
def applyPuts : Table → List (Bytes × Bytes) → List Bool →
    Except DBError Table
  | t, [], _ => .ok t
  | t, (k, v) :: rest, pf =>
    if pf.headD false then .error .putFailed
    else applyPuts (tblPut t k v) rest pf.tail

/-- `InnerDatabase::batch_write` (basic_db.rs lines 96–111): lock, begin
a read-write transaction, `create_table`, one `put` per item in sequence
order, a single `commit`.  Any failing call propagates with `?`,
aborting the transaction. -/
def batch_write (fs : FailSpec) (e : Env) (items : List (Bytes × Bytes))
    (tbl : String) : Except DBError Env :=
  if fs.beginFail then .error .txnBegin
  else if fs.createFail then .error .tableCreate
  else
    match applyPuts ((envGetTable e tbl).getD []) items fs.putFails with
    | .error err => .error err
    | .ok t' =>
      if fs.commitFail then .error .commitFailed
      else .ok (envSetTable e tbl t')

/-- `InnerDatabase::clone` (basic_db.rs lines 46–50): `Arc::clone` — the
new handle references the very same environment and lock. -/
def clone (e : Env) : Env := e

/-- The environment visible after an operation: the committed
environment on success; on any error the transaction was dropped without
commit, so the old environment is unchanged. -/
def exceptEnv (e : Env) : Except DBError Env → Env
  | .ok e' => e'
  | .error _ => e

/-- One operation of the storage interface, for reasoning about
arbitrary operation sequences. -/
inductive Op where
  | opWrite (k v : Bytes) (tbl : String)
  | opRead (k : Bytes) (tbl : String)
  | opReadAll (tbl : String)
  | opBatchWrite (items : List (Bytes × Bytes)) (tbl : String)

/-- State transition of one operation (reads leave the environment
untouched; failed writers abort). -/
def step (fs : FailSpec) (e : Env) : Op → Env
  | .opWrite k v tbl => exceptEnv e (write fs e k v tbl)
  | .opRead _ _ => e
  | .opReadAll _ => e
  | .opBatchWrite items tbl => exceptEnv e (batch_write fs e items tbl)

/-- Run a sequence of operations, each with its own injected failures. -/
def run (e : Env) : List (FailSpec × Op) → Env
  | [] => e
  | (fs, op) :: rest => run (step fs e op) rest

/-- Key `k` is bound in table `tbl` of the environment. -/
def keyPresentB (e : Env) (tbl : String) (k : Bytes) : Bool :=
  match envGetTable e tbl with
  | some t => (tblGet t k).isSome
  | none => false

/-- Table `tbl` exists in the environment. -/
def tableExistsB (e : Env) (tbl : String) : Bool :=
  (envGetTable e tbl).isSome

/-- Value of the last occurrence of key `k` in a batch sequence. -/
def lastPut : List (Bytes × Bytes) → Bytes → Option Bytes
  | [], _ => none
  | (k', v) :: rest, k =>
    match lastPut rest k with
    | some w => some w
    | none => if k' = k then some v else none

/-- Fold the puts of a (failure-free) batch over a table. -/
def putAll (t : Table) (ps : List (Bytes × Bytes)) : Table :=
  ps.foldl (fun t kv => tblPut t kv.1 kv.2) t

/-- Apply a sequence of failure-free single `write` calls in order. -/
def writeMany (e : Env) (ps : List (Bytes × Bytes)) (tbl : String) :
    Env :=
  ps.foldl (fun e kv => exceptEnv e (write fsNone e kv.1 kv.2 tbl)) e

/-- A table holds each key at most once (always true of tables built by
upserts; libmdbx non-DUPSORT tables are keyed maps). -/
def tblWF (t : Table) : Prop := (t.map Prod.fst).Nodup

/-- Every table of the environment is well-formed. -/
def envWF (e : Env) : Prop := ∀ p ∈ e, tblWF p.2

/-- The pair `kv` is literally stored in table `tbl`. -/
def pairInTable (e : Env) (tbl : String) (kv : Bytes × Bytes) : Prop :=
  match envGetTable e tbl with
  | some t => kv ∈ t
  | none => False

/-! ### Basic lemmas about tables and the environment -/

theorem tblGet_tblPut (t : Table) (k' v k) :
    tblGet (tblPut t k' v) k = if k' = k then some v else tblGet t k := by
  induction t with
  | nil => simp [tblPut, tblGet]
  | cons p t ih =>
    obtain ⟨a, b⟩ := p
    by_cases hak : a = k'
    · subst hak
      by_cases h : a = k <;> simp [tblPut, tblGet, h]
    · by_cases h : a = k
      · subst h
        have : ¬ (k' = a) := fun hc => hak hc.symm
        simp [tblPut, tblGet, hak, this]
      · simp [tblPut, tblGet, hak, h, ih]

theorem envGetTable_envSetTable (e : Env) (n : String) (t : Table) (m) :
    envGetTable (envSetTable e n t) m =
      if n = m then some t else envGetTable e m := by
  induction e with
  | nil => simp [envSetTable, envGetTable]
  | cons p e ih =>
    obtain ⟨a, b⟩ := p
    by_cases han : a = n
    · subst han
      by_cases h : a = m <;> simp [envSetTable, envGetTable, h]
    · by_cases h : a = m
      · subst h
        have : ¬ (n = a) := fun hc => han hc.symm
        simp [envSetTable, envGetTable, han, this]
      · simp [envSetTable, envGetTable, han, h, ih]

theorem tblGet_append (t s : Table) (k : Bytes) :
    tblGet (t ++ s) k =
      match tblGet t k with
      | some v => some v
      | none => tblGet s k := by
  induction t with
  | nil => simp [tblGet]
  | cons p t ih =>
    obtain ⟨a, b⟩ := p
    by_cases h : a = k <;> simp [tblGet, h, ih]

theorem tblPut_absent (t : Table) (k v) (h : tblGet t k = none) :
    tblPut t k v = t ++ [(k, v)] := by
  induction t with
  | nil => simp [tblPut]
  | cons p t ih =>
    obtain ⟨a, b⟩ := p
    by_cases hak : a = k
    · subst hak
      simp [tblGet] at h
    · simp [tblGet, hak] at h
      simp [tblPut, hak, ih h]

theorem putAll_cons (t : Table) (p) (ps : List (Bytes × Bytes)) :
    putAll t (p :: ps) = putAll (tblPut t p.1 p.2) ps := rfl

theorem tblGet_putAll (t : Table) (ps : List (Bytes × Bytes)) (k) :
    tblGet (putAll t ps) k =
      match lastPut ps k with
      | some w => some w
      | none => tblGet t k := by
  induction ps generalizing t with
  | nil => simp [putAll, lastPut]
  | cons p ps ih =>
    obtain ⟨k', v⟩ := p
    rw [putAll_cons, ih]
    rcases hl : lastPut ps k with _ | w
    · rw [tblGet_tblPut]
      by_cases h : k' = k <;> simp [lastPut, hl, h]
    · simp [lastPut, hl]

theorem tblGet_putAll_not_mem (t : Table) (ps : List (Bytes × Bytes))
    (k) (h : k ∉ ps.map Prod.fst) :
    tblGet (putAll t ps) k = tblGet t k := by
  induction ps generalizing t with
  | nil => rfl
  | cons p ps ih =>
    obtain ⟨k', v⟩ := p
    simp only [List.map_cons, List.mem_cons] at h
    push_neg at h
    have hne : ¬ (k' = k) := fun hc => h.1 hc.symm
    rw [putAll_cons, ih _ h.2, tblGet_tblPut]
    simp [hne]

theorem putAll_fresh (t : Table) (ps : List (Bytes × Bytes))
    (habs : ∀ p ∈ ps, tblGet t p.1 = none)
    (hnd : (ps.map Prod.fst).Nodup) :
    putAll t ps = t ++ ps := by
  induction ps generalizing t with
  | nil => simp [putAll]
  | cons p ps ih =>
    obtain ⟨k, v⟩ := p
    simp only [List.map_cons, List.nodup_cons] at hnd
    rw [putAll_cons]
    have h1 : tblGet t k = none := habs (k, v) (List.mem_cons_self _ _)
    have h2 : ∀ q ∈ ps, tblGet (tblPut t k v) q.1 = none := by
      intro q hq
      rw [tblGet_tblPut]
      have hkq : ¬ (k = q.1) := by
        intro hc
        exact hnd.1 (hc ▸ List.mem_map_of_mem Prod.fst hq)
      simp [hkq, habs q (List.mem_cons_of_mem _ hq)]
    rw [ih (tblPut t k v) h2 hnd.2, tblPut_absent t k v h1]
    simp

theorem putAll_nil_eq (ps : List (Bytes × Bytes))
    (hnd : (ps.map Prod.fst).Nodup) : putAll [] ps = ps := by
  have := putAll_fresh [] ps (fun p _ => rfl) hnd
  simpa using this

theorem tblGet_cons (a b : Bytes) (t : Table) (k : Bytes) :
    tblGet ((a, b) :: t) k = if a = k then some b else tblGet t k := rfl

theorem tblPut_cons (a b : Bytes) (t : Table) (k v : Bytes) :
    tblPut ((a, b) :: t) k v =
      if a = k then (k, v) :: t else (a, b) :: tblPut t k v := rfl

theorem tblGet_none_iff (t : Table) (k : Bytes) :
    tblGet t k = none ↔ k ∉ t.map Prod.fst := by
  induction t with
  | nil => simp [tblGet]
  | cons p t ih =>
    obtain ⟨a, b⟩ := p
    rw [tblGet_cons]
    by_cases h : a = k
    · rw [if_pos h]
      simp only [List.map_cons, List.mem_cons]
      constructor
      · intro hc
        exact absurd hc (by simp)
      · intro hc
        exact absurd (Or.inl h.symm) hc
    · rw [if_neg h, ih]
      simp only [List.map_cons, List.mem_cons]
      constructor
      · intro hk hor
        rcases hor with h1 | h1
        · exact h h1.symm
        · exact hk h1
      · intro hk h1
        exact hk (Or.inr h1)

theorem keys_tblPut_present (t : Table) (k v : Bytes)
    (h : tblGet t k ≠ none) :
    (tblPut t k v).map Prod.fst = t.map Prod.fst := by
  induction t with
  | nil => simp [tblGet] at h
  | cons p t ih =>
    obtain ⟨a, b⟩ := p
    by_cases hak : a = k
    · subst hak
      simp [tblPut]
    · simp only [tblGet, if_neg hak] at h
      simp [tblPut, hak, ih h]

theorem tblWF_tblPut (t : Table) (k v) (h : tblWF t) :
    tblWF (tblPut t k v) := by
  rcases hg : tblGet t k with _ | w
  · rw [tblPut_absent t k v hg]
    unfold tblWF at h ⊢
    rw [List.map_append]
    simp only [List.map_cons, List.map_nil]
    rw [List.nodup_append]
    refine ⟨h, List.nodup_singleton k, ?_⟩
    intro x hx hx1
    simp only [List.mem_singleton] at hx1
    subst hx1
    exact (tblGet_none_iff t x).1 hg hx
  · unfold tblWF at h ⊢
    rw [keys_tblPut_present t k v (by simp [hg])]
    exact h

theorem tblWF_putAll (t : Table) (ps : List (Bytes × Bytes))
    (h : tblWF t) : tblWF (putAll t ps) := by
  induction ps generalizing t with
  | nil => exact h
  | cons p ps ih => exact ih _ (tblWF_tblPut t p.1 p.2 h)

theorem mem_tblPut (t : Table) (k v : Bytes) (q : Bytes × Bytes)
    (h : q ∈ tblPut t k v) : q = (k, v) ∨ q ∈ t := by
  induction t with
  | nil =>
    simp only [tblPut, List.mem_singleton] at h
    exact Or.inl h
  | cons p t ih =>
    obtain ⟨a, b⟩ := p
    by_cases hak : a = k
    · rw [tblPut_cons, if_pos hak] at h
      rcases List.mem_cons.1 h with h1 | h1
      · exact Or.inl h1
      · exact Or.inr (List.mem_cons_of_mem _ h1)
    · rw [tblPut_cons, if_neg hak] at h
      rcases List.mem_cons.1 h with h1 | h1
      · exact Or.inr (h1 ▸ List.mem_cons_self _ _)
      · rcases ih h1 with h2 | h2
        · exact Or.inl h2
        · exact Or.inr (List.mem_cons_of_mem _ h2)

theorem mem_tblPut_same_key (t : Table) (hWF : tblWF t) (k v v' : Bytes)
    (h : (k, v') ∈ tblPut t k v) : v' = v := by
  induction t with
  | nil =>
    simp only [tblPut, List.mem_singleton, Prod.mk.injEq] at h
    exact h.2
  | cons p t ih =>
    obtain ⟨a, b⟩ := p
    unfold tblWF at hWF
    simp only [List.map_cons, List.nodup_cons] at hWF
    by_cases hak : a = k
    · rw [tblPut_cons, if_pos hak] at h
      rcases List.mem_cons.1 h with h1 | h1
      · exact (Prod.mk.injEq _ _ _ _ ▸ h1).2
      · exact absurd (hak ▸ List.mem_map_of_mem Prod.fst h1) hWF.1
    · rw [tblPut_cons, if_neg hak] at h
      rcases List.mem_cons.1 h with h1 | h1
      · exact absurd ((Prod.mk.injEq _ _ _ _ ▸ h1).1).symm hak
      · exact ih hWF.2 h1

theorem envSetTable_cons (a : String) (b : Table) (e : Env) (n t) :
    envSetTable ((a, b) :: e) n t =
      if a = n then (n, t) :: e else (a, b) :: envSetTable e n t := rfl

theorem envWF_envSetTable (e : Env) (n t) (he : envWF e) (ht : tblWF t) :
    envWF (envSetTable e n t) := by
  induction e with
  | nil =>
    intro p hp
    have : p = (n, t) := List.mem_singleton.1 hp
    rw [this]
    exact ht
  | cons q e ih =>
    obtain ⟨a, b⟩ := q
    have hb : tblWF b := he (a, b) (List.mem_cons_self _ _)
    have he2 : envWF e := fun p hp => he p (List.mem_cons_of_mem _ hp)
    rw [envSetTable_cons]
    by_cases han : a = n
    · rw [if_pos han]
      intro p hp
      rcases List.mem_cons.1 hp with h1 | h1
      · rw [h1]; exact ht
      · exact he2 p h1
    · rw [if_neg han]
      intro p hp
      rcases List.mem_cons.1 hp with h1 | h1
      · rw [h1]; exact hb
      · exact ih he2 p h1

theorem envGetTable_cons (a : String) (b : Table) (e : Env) (n) :
    envGetTable ((a, b) :: e) n =
      if a = n then some b else envGetTable e n := rfl

/-! ### Success-path characterizations of the four operations -/

theorem write_fsNone_eq (e : Env) (k v : Bytes) (tbl : String) :
    write fsNone e k v tbl =
      .ok (envSetTable e tbl
        (tblPut ((envGetTable e tbl).getD []) k v)) := rfl

theorem write_ok_eq (fs : FailSpec) (e : Env) (k v tbl) (eNew : Env)
    (h : write fs e k v tbl = .ok eNew) :
    eNew = envSetTable e tbl
      (tblPut ((envGetTable e tbl).getD []) k v) := by
  unfold write at h
  rcases hb : fs.beginFail with _ | _ <;> rw [hb] at h
  · rcases hc : fs.createFail with _ | _ <;> rw [hc] at h
    · rcases hp : fs.putFails.headD false with _ | _ <;> rw [hp] at h
      · rcases hm : fs.commitFail with _ | _ <;> rw [hm] at h
        · simp at h
          exact h.symm
        · simp at h
      · simp at h
    · simp at h
  · simp at h

theorem write_error_keeps_env (fs : FailSpec) (e : Env) (k v tbl) (err)
    (h : write fs e k v tbl = .error err) :
    exceptEnv e (write fs e k v tbl) = e := by
  rw [h]
  rfl

theorem applyPuts_ok (items : List (Bytes × Bytes)) :
    ∀ (t : Table) (pf : List Bool) (tNew : Table),
      applyPuts t items pf = .ok tNew → tNew = putAll t items := by
  induction items with
  | nil =>
    intro t pf tNew h
    simp only [applyPuts] at h
    simp only [putAll, List.foldl_nil]
    exact (Except.ok.inj h).symm
  | cons p rest ih =>
    intro t pf tNew h
    obtain ⟨k, v⟩ := p
    simp only [applyPuts] at h
    rcases hp : pf.headD false with _ | _ <;> rw [hp] at h
    · simp only [Bool.false_eq_true, if_false] at h
      rw [putAll_cons]
      exact ih (tblPut t k v) pf.tail tNew h
    · simp at h

theorem applyPuts_nofail (items : List (Bytes × Bytes)) :
    ∀ t : Table, applyPuts t items [] = .ok (putAll t items) := by
  induction items with
  | nil => intro t; rfl
  | cons p rest ih =>
    intro t
    obtain ⟨k, v⟩ := p
    simp only [applyPuts, List.headD, List.tail]
    rw [putAll_cons]
    exact ih (tblPut t k v)

theorem batch_write_ok_eq (fs : FailSpec) (e : Env) (items tbl)
    (eNew : Env) (h : batch_write fs e items tbl = .ok eNew) :
    eNew = envSetTable e tbl
      (putAll ((envGetTable e tbl).getD []) items) := by
  unfold batch_write at h
  rcases hb : fs.beginFail with _ | _ <;> rw [hb] at h
  · rcases hc : fs.createFail with _ | _ <;> rw [hc] at h
    · simp only [Bool.false_eq_true, if_false] at h
      rcases hap : applyPuts ((envGetTable e tbl).getD []) items
          fs.putFails with err | tmid <;> rw [hap] at h
      · simp at h
      · simp only at h
        rcases hm : fs.commitFail with _ | _ <;> rw [hm] at h
        · simp only [Bool.false_eq_true, if_false, Except.ok.injEq] at h
          rw [← h, applyPuts_ok items _ _ _ hap]
        · simp at h
    · simp at h
  · simp at h

theorem batch_write_fsNone_eq (e : Env) (items tbl) :
    batch_write fsNone e items tbl =
      .ok (envSetTable e tbl
        (putAll ((envGetTable e tbl).getD []) items)) := by
  unfold batch_write
  simp only [fsNone, Bool.false_eq_true, if_false]
  rw [applyPuts_nofail]

theorem batch_write_error_keeps_env (fs : FailSpec) (e : Env)
    (items tbl) (err) (h : batch_write fs e items tbl = .error err) :
    exceptEnv e (batch_write fs e items tbl) = e := by
  rw [h]
  rfl

theorem read_fsNone_eq (e : Env) (k : Bytes) (tbl : String) :
    read fsNone e k tbl =
      .ok (match envGetTable e tbl with
           | none => none
           | some t => tblGet t k) := by
  unfold read
  simp only [fsNone, Bool.false_eq_true, if_false]
  rcases envGetTable e tbl with _ | t <;> rfl

theorem read_all_fsNone_eq (e : Env) (tbl : String) :
    read_all fsNone e tbl =
      .ok (match envGetTable e tbl with
           | none => []
           | some t => t.foldl (fun m kv => tblPut m kv.1 kv.2) []) := by
  unfold read_all
  simp only [fsNone, Bool.false_eq_true, if_false]
  rcases envGetTable e tbl with _ | t <;> rfl

theorem envWF_getTable (e : Env) (n t) (he : envWF e)
    (h : envGetTable e n = some t) : tblWF t := by
  induction e with
  | nil => simp [envGetTable] at h
  | cons q e ih =>
    obtain ⟨a, b⟩ := q
    rw [envGetTable_cons] at h
    by_cases han : a = n
    · rw [if_pos han] at h
      have : b = t := Option.some.inj h
      rw [← this]
      exact he (a, b) (List.mem_cons_self _ _)
    · rw [if_neg han] at h
      exact ih (fun p hp => he p (List.mem_cons_of_mem _ hp)) h

theorem envWF_getTableD (e : Env) (tbl : String) (he : envWF e) :
    tblWF ((envGetTable e tbl).getD []) := by
  rcases hg : envGetTable e tbl with _ | t
  · exact List.nodup_nil
  · exact envWF_getTable e tbl t he hg

theorem envWF_write (fs : FailSpec) (e : Env) (k v tbl) (eNew : Env)
    (he : envWF e) (h : write fs e k v tbl = .ok eNew) : envWF eNew := by
  rw [write_ok_eq fs e k v tbl eNew h]
  exact envWF_envSetTable e tbl _ he
    (tblWF_tblPut _ k v (envWF_getTableD e tbl he))

theorem envWF_batch_write (fs : FailSpec) (e : Env) (items tbl)
    (eNew : Env) (he : envWF e)
    (h : batch_write fs e items tbl = .ok eNew) : envWF eNew := by
  rw [batch_write_ok_eq fs e items tbl eNew h]
  exact envWF_envSetTable e tbl _ he
    (tblWF_putAll _ items (envWF_getTableD e tbl he))

theorem envWF_step (fs : FailSpec) (e : Env) (op : Op) (he : envWF e) :
    envWF (step fs e op) := by
  cases op with
  | opWrite k v tbl =>
    simp only [step]
    rcases hw : write fs e k v tbl with err | eNew
    · exact he
    · exact envWF_write fs e k v tbl eNew he hw
  | opRead k tbl => exact he
  | opReadAll tbl => exact he
  | opBatchWrite items tbl =>
    simp only [step]
    rcases hw : batch_write fs e items tbl with err | eNew
    · exact he
    · exact envWF_batch_write fs e items tbl eNew he hw

theorem envWF_run (ops : List (FailSpec × Op)) :
    ∀ e : Env, envWF e → envWF (run e ops) := by
  induction ops with
  | nil => intro e he; exact he
  | cons p ops ih =>
    intro e he
    exact ih (step p.1 e p.2) (envWF_step p.1 e p.2 he)

/-! ### Sequences of single writes -/

theorem writeMany_nil (e : Env) (tbl : String) :
    writeMany e [] tbl = e := rfl

theorem writeMany_cons (e : Env) (p : Bytes × Bytes)
    (ps : List (Bytes × Bytes)) (tbl : String) :
    writeMany e (p :: ps) tbl =
      writeMany (envSetTable e tbl
        (tblPut ((envGetTable e tbl).getD []) p.1 p.2)) ps tbl := by
  unfold writeMany
  rw [List.foldl_cons, write_fsNone_eq]
  rfl

theorem writeMany_getTable_some (ps : List (Bytes × Bytes)) :
    ∀ (e : Env) (tbl : String) (t : Table),
      envGetTable e tbl = some t →
      envGetTable (writeMany e ps tbl) tbl = some (putAll t ps) := by
  induction ps with
  | nil =>
    intro e tbl t h
    rw [writeMany_nil, h]
    rfl
  | cons p ps ih =>
    intro e tbl t h
    rw [writeMany_cons, putAll_cons]
    apply ih
    rw [envGetTable_envSetTable, if_pos rfl, h]
    rfl

theorem writeMany_table (e : Env) (p : Bytes × Bytes)
    (ps : List (Bytes × Bytes)) (tbl : String) :
    envGetTable (writeMany e (p :: ps) tbl) tbl =
      some (putAll ((envGetTable e tbl).getD []) (p :: ps)) := by
  rw [writeMany_cons, putAll_cons]
  apply writeMany_getTable_some
  rw [envGetTable_envSetTable, if_pos rfl]

theorem writeMany_other_table (ps : List (Bytes × Bytes)) :
    ∀ (e : Env) (tbl tb2 : String), tbl ≠ tb2 →
      envGetTable (writeMany e ps tbl) tb2 = envGetTable e tb2 := by
  induction ps with
  | nil => intro e tbl tb2 _; rfl
  | cons p ps ih =>
    intro e tbl tb2 hne
    rw [writeMany_cons, ih _ tbl tb2 hne, envGetTable_envSetTable,
      if_neg hne]

/-! ### Monotonicity of key and table presence -/

theorem tblGet_tblPut_isSome (t : Table) (k2 v k : Bytes)
    (h : (tblGet t k).isSome = true) :
    (tblGet (tblPut t k2 v) k).isSome = true := by
  rw [tblGet_tblPut]
  by_cases hk : k2 = k
  · rw [if_pos hk]; rfl
  · rw [if_neg hk]; exact h

theorem tblGet_putAll_isSome (t : Table) (ps : List (Bytes × Bytes))
    (k : Bytes) (h : (tblGet t k).isSome = true) :
    (tblGet (putAll t ps) k).isSome = true := by
  rw [tblGet_putAll]
  rcases hl : lastPut ps k with _ | w
  · exact h
  · rfl

theorem keyPresentB_envSetPut (e : Env) (tbl tb2 : String)
    (k k2 v : Bytes) (h : keyPresentB e tbl k = true) :
    keyPresentB
      (envSetTable e tb2
        (tblPut ((envGetTable e tb2).getD []) k2 v)) tbl k = true := by
  unfold keyPresentB at h ⊢
  rw [envGetTable_envSetTable]
  by_cases ht : tb2 = tbl
  · rw [if_pos ht]
    rcases hg : envGetTable e tbl with _ | t
    · rw [hg] at h; simp at h
    · rw [hg] at h
      rw [ht, hg]
      exact tblGet_tblPut_isSome t k2 v k h
  · rw [if_neg ht]
    exact h

theorem keyPresentB_envSetPutAll (e : Env) (tbl tb2 : String)
    (k : Bytes) (items : List (Bytes × Bytes))
    (h : keyPresentB e tbl k = true) :
    keyPresentB
      (envSetTable e tb2
        (putAll ((envGetTable e tb2).getD []) items)) tbl k = true := by
  unfold keyPresentB at h ⊢
  rw [envGetTable_envSetTable]
  by_cases ht : tb2 = tbl
  · rw [if_pos ht]
    rcases hg : envGetTable e tbl with _ | t
    · rw [hg] at h; simp at h
    · rw [hg] at h
      rw [ht, hg]
      exact tblGet_putAll_isSome t items k h
  · rw [if_neg ht]
    exact h

theorem keyPresentB_step (fs : FailSpec) (e : Env) (op : Op)
    (tbl : String) (k : Bytes) (h : keyPresentB e tbl k = true) :
    keyPresentB (step fs e op) tbl k = true := by
  cases op with
  | opWrite k2 v tb2 =>
    simp only [step]
    rcases hw : write fs e k2 v tb2 with err | eNew
    · exact h
    · rw [show exceptEnv e (Except.ok eNew) = eNew from rfl,
        write_ok_eq fs e k2 v tb2 eNew hw]
      exact keyPresentB_envSetPut e tbl tb2 k k2 v h
  | opRead k2 tb2 => exact h
  | opReadAll tb2 => exact h
  | opBatchWrite items tb2 =>
    simp only [step]
    rcases hw : batch_write fs e items tb2 with err | eNew
    · exact h
    · rw [show exceptEnv e (Except.ok eNew) = eNew from rfl,
        batch_write_ok_eq fs e items tb2 eNew hw]
      exact keyPresentB_envSetPutAll e tbl tb2 k items h

theorem tableExistsB_step (fs : FailSpec) (e : Env) (op : Op)
    (tbl : String) (h : tableExistsB e tbl = true) :
    tableExistsB (step fs e op) tbl = true := by
  have key : ∀ (e2 : Env) (tb2 : String) (t : Table),
      tableExistsB e2 tbl = true →
      tableExistsB (envSetTable e2 tb2 t) tbl = true := by
    intro e2 tb2 t hex
    unfold tableExistsB at hex ⊢
    rw [envGetTable_envSetTable]
    by_cases ht : tb2 = tbl
    · rw [if_pos ht]; rfl
    · rw [if_neg ht]; exact hex
  cases op with
  | opWrite k2 v tb2 =>
    simp only [step]
    rcases hw : write fs e k2 v tb2 with err | eNew
    · exact h
    · rw [show exceptEnv e (Except.ok eNew) = eNew from rfl,
        write_ok_eq fs e k2 v tb2 eNew hw]
      exact key e tb2 _ h
  | opRead k2 tb2 => exact h
  | opReadAll tb2 => exact h
  | opBatchWrite items tb2 =>
    simp only [step]
    rcases hw : batch_write fs e items tb2 with err | eNew
    · exact h
    · rw [show exceptEnv e (Except.ok eNew) = eNew from rfl,
        batch_write_ok_eq fs e items tb2 eNew hw]
      exact key e tb2 _ h

theorem tblGet_putAll_mem (l : List (Bytes × Bytes)) :
    ∀ (t : Table) (k v : Bytes), (k, v) ∈ l → (l.map Prod.fst).Nodup →
      tblGet (putAll t l) k = some v := by
  induction l with
  | nil =>
    intro t k v h _
    exact absurd h (List.not_mem_nil _)
  | cons p l ih =>
    intro t k v h hnd
    obtain ⟨k1, v1⟩ := p
    simp only [List.map_cons, List.nodup_cons] at hnd
    rw [putAll_cons]
    rcases List.mem_cons.1 h with h1 | h1
    · have hk : k = k1 := congrArg Prod.fst h1
      have hv : v = v1 := congrArg Prod.snd h1
      subst hk
      subst hv
      rw [tblGet_putAll_not_mem _ _ _ hnd.1, tblGet_tblPut, if_pos rfl]
    · exact ih (tblPut t k1 v1) k v h1 hnd.2

theorem read_of_getTable_some (e : Env) (k : Bytes) (tbl : String)
    (t : Table) (hg : envGetTable e tbl = some t) :
    read fsNone e k tbl = .ok (tblGet t k) := by
  rw [read_fsNone_eq, hg]

theorem read_all_of_getTable_some (e : Env) (tbl : String) (t : Table)
    (hg : envGetTable e tbl = some t) :
    read_all fsNone e tbl = .ok (putAll [] t) := by
  rw [read_all_fsNone_eq, hg]
  rfl

theorem batch_ok_read_lastPut (fs : FailSpec) (e : Env)
    (items : List (Bytes × Bytes)) (tbl : String) (eNew : Env)
    (k v : Bytes) (h : batch_write fs e items tbl = .ok eNew)
    (hlast : lastPut items k = some v) :
    read fsNone eNew k tbl = .ok (some v) := by
  rw [batch_write_ok_eq fs e items tbl eNew h]
  rw [read_of_getTable_some _ k tbl _
    (by rw [envGetTable_envSetTable, if_pos rfl])]
  rw [tblGet_putAll, hlast]

/-! ### The claims -/

/-- C1: for every table name T and key/value pair (k, v), `write(k, v, T)`
followed by `read(k, T)` on the same handle, with no intervening write,
returns `Ok(Some(v))` — exactly the bytes of v. -/
theorem C1_write_read_roundtrip (e : Env) (k v : Bytes) (tbl : String)
    (eNew : Env) (h : write fsNone e k v tbl = .ok eNew) :
    read fsNone eNew k tbl = .ok (some v) := by
  rw [write_ok_eq fsNone e k v tbl eNew h]
  rw [read_of_getTable_some _ k tbl _
    (by rw [envGetTable_envSetTable, if_pos rfl])]
  rw [tblGet_tblPut, if_pos rfl]

/-- Witness for C1 at a concrete input. -/
theorem C1_witness :
    read fsNone [("t", [([0], [1, 2])])] [0] "t" = .ok (some [1, 2]) :=
  C1_write_read_roundtrip [] [0] [1, 2] "t" [("t", [([0], [1, 2])])]
    (by rfl)

/-- C3: absence is never an error.  Provided the read-only transaction
opens (`beginFail = false`): reading any key from a nonexistent table is
`Ok(None)` and `read_all` of a nonexistent table is `Ok` of the empty
mapping; reading an absent key from an existing table (with the engine's
`get` not failing) is `Ok(None)`.  No absence case takes an error path. -/
theorem C3_absence_not_error (fs : FailSpec) (e : Env) (k : Bytes)
    (tbl : String) (hb : fs.beginFail = false) :
    (envGetTable e tbl = none →
      read fs e k tbl = .ok none ∧ read_all fs e tbl = .ok []) ∧
    (∀ t, envGetTable e tbl = some t → tblGet t k = none →
      fs.getFail = false → read fs e k tbl = .ok none) := by
  constructor
  · intro hg
    constructor
    · unfold read
      rw [hb, hg]
      rfl
    · unfold read_all
      rw [hb, hg]
      rfl
  · intro t hg hget hgf
    unfold read
    rw [hb, hg]
    simp only [Bool.false_eq_true, if_false]
    rcases ho : fs.openFail with _ | _
    · rw [hgf, hget]
      simp
    · simp

/-- Witness for C3: a missing table and a missing key in an existing
table, both at concrete inputs. -/
theorem C3_witness :
    (read fsNone [] [0] "missing" = .ok none ∧
      read_all fsNone [] "missing" = .ok []) ∧
    read fsNone [("t", [([5], [6])])] [0] "t" = .ok none :=
  ⟨(C3_absence_not_error fsNone [] [0] "missing" rfl).1 rfl,
    (C3_absence_not_error fsNone [("t", [([5], [6])])] [0] "t" rfl).2
      [([5], [6])] rfl rfl rfl⟩

/-- C9: when the batch sequence repeats a key, the puts are applied in
sequence order inside the one transaction, so after a successful
`batch_write` the stored value is that of the key's last occurrence in
the sequence. -/
theorem C9_batch_last_occurrence (fs : FailSpec) (e : Env)
    (items : List (Bytes × Bytes)) (tbl : String) (eNew : Env)
    (k v : Bytes) (h : batch_write fs e items tbl = .ok eNew)
    (hlast : lastPut items k = some v) :
    read fsNone eNew k tbl = .ok (some v) :=
  batch_ok_read_lastPut fs e items tbl eNew k v h hlast

/-- Witness for C9: a batch writing key [0] twice stores the second
value. -/
theorem C9_witness :
    read fsNone [("t", [([0], [2])])] [0] "t" = .ok (some [2]) :=
  C9_batch_last_occurrence fsNone [] [([0], [1]), ([0], [2])] "t"
    [("t", [([0], [2])])] [0] [2] (by rfl) (by rfl)

theorem envWF_nil : envWF [] := by
  intro p hp
  exact absurd hp (List.not_mem_nil p)

/-- C4: after writing n distinct keys into a fresh table T (each key with
its value), `read_all(T)` returns exactly those n pairs, each exactly
once, with no extras. -/
theorem C4_read_all_exact (ps : List (Bytes × Bytes)) (tbl : String)
    (hnd : (ps.map Prod.fst).Nodup) :
    read_all fsNone (writeMany [] ps tbl) tbl = .ok ps := by
  cases ps with
  | nil => rfl
  | cons p ps2 =>
    have htf := writeMany_table [] p ps2 tbl
    rw [read_all_of_getTable_some _ tbl _ htf]
    have h1 : putAll ((envGetTable ([] : Env) tbl).getD []) (p :: ps2) =
        p :: ps2 := putAll_nil_eq (p :: ps2) hnd
    rw [h1, putAll_nil_eq (p :: ps2) hnd]

/-- Witness for C4 at two distinct keys. -/
theorem C4_witness :
    read_all fsNone (writeMany [] [([0], [1]), ([2], [3])] "t") "t" =
      .ok [([0], [1]), ([2], [3])] :=
  C4_read_all_exact [([0], [1]), ([2], [3])] "t" (by decide)

/-- C5: overwrite semantics — writing v1 then v2 under the same key and
table leaves `read` returning v2 only, and no entry with that key and a
value other than v2 remains in the table (no versioning). -/
theorem C5_overwrite (e : Env) (k v1 v2 : Bytes) (tbl : String)
    (e1 e2 : Env) (he : envWF e)
    (h1 : write fsNone e k v1 tbl = .ok e1)
    (h2 : write fsNone e1 k v2 tbl = .ok e2) :
    read fsNone e2 k tbl = .ok (some v2) ∧
    ∀ t2 vx, envGetTable e2 tbl = some t2 → (k, vx) ∈ t2 → vx = v2 := by
  have hw1 := write_ok_eq fsNone e k v1 tbl e1 h1
  have hw2 := write_ok_eq fsNone e1 k v2 tbl e2 h2
  have hg1 : envGetTable e1 tbl =
      some (tblPut ((envGetTable e tbl).getD []) k v1) := by
    rw [hw1, envGetTable_envSetTable, if_pos rfl]
  have hg2 : envGetTable e2 tbl =
      some (tblPut (tblPut ((envGetTable e tbl).getD []) k v1) k v2) := by
    rw [hw2, envGetTable_envSetTable, if_pos rfl, hg1]
    rfl
  constructor
  · rw [read_of_getTable_some _ k tbl _ hg2, tblGet_tblPut, if_pos rfl]
  · intro t2 vx hgt hmem
    rw [hg2] at hgt
    have ht2 : t2 = tblPut (tblPut ((envGetTable e tbl).getD []) k v1)
        k v2 := (Option.some.inj hgt).symm
    rw [ht2] at hmem
    exact mem_tblPut_same_key _
      (tblWF_tblPut _ k v1 (envWF_getTableD e tbl he)) k v2 vx hmem

/-- Witness for C5: write [7] then [8] under key [0]; read returns [8]
and the table holds no other value under [0]. -/
theorem C5_witness :
    read fsNone [("t", [([0], [8])])] [0] "t" = .ok (some [8]) :=
  (C5_overwrite [] [0] [7] [8] "t" [("t", [([0], [7])])]
    [("t", [([0], [8])])] envWF_nil (by rfl) (by rfl)).1

/-- C6: table isolation — a write of key k into table A leaves table B
(A ≠ B) completely unchanged: its stored contents and the result of any
read against B are the same as before. -/
theorem C6_table_isolation (e : Env) (k v : Bytes) (tblA tblB : String)
    (eNew : Env) (hne : tblA ≠ tblB)
    (h : write fsNone e k v tblA = .ok eNew) :
    envGetTable eNew tblB = envGetTable e tblB ∧
    ∀ (fs : FailSpec) (k2 : Bytes),
      read fs eNew k2 tblB = read fs e k2 tblB := by
  have heq : envGetTable eNew tblB = envGetTable e tblB := by
    rw [write_ok_eq fsNone e k v tblA eNew h, envGetTable_envSetTable,
      if_neg hne]
  refine ⟨heq, ?_⟩
  intro fs k2
  unfold read
  rw [heq]

/-- Witness for C6: writing key [0] to table "a" leaves table "b" absent,
so reading [0] from "b" still returns no value. -/
theorem C6_witness :
    read fsNone [("a", [([0], [1])])] [0] "b" = read fsNone [] [0] "b" :=
  (C6_table_isolation [] [0] [1] "a" "b" [("a", [([0], [1])])]
    (by decide) (by rfl)).2 fsNone [0]

/-- C7: no operation ever removes a key or drops a table — over any
sequence of write / read / readAll / batchWrite operations (with any
injected engine failures), a key bound in a table stays bound, and an
existing table keeps existing: the key set of every table grows
monotonically. -/
theorem C7_no_deletion (ops : List (FailSpec × Op)) (e : Env)
    (tbl : String) (k : Bytes) :
    (keyPresentB e tbl k = true → keyPresentB (run e ops) tbl k = true) ∧
    (tableExistsB e tbl = true → tableExistsB (run e ops) tbl = true) := by
  induction ops generalizing e with
  | nil => exact ⟨id, id⟩
  | cons p ops ih =>
    obtain ⟨fs, op⟩ := p
    constructor
    · intro h
      exact (ih (step fs e op)).1 (keyPresentB_step fs e op tbl k h)
    · intro h
      exact (ih (step fs e op)).2 (tableExistsB_step fs e op tbl h)

/-- Witness for C7: key [0] of table "t" survives an overwrite, a write
to another table, a failing batch and a read. -/
theorem C7_witness :
    keyPresentB
      (run [("t", [([0], [1])])]
        [(fsNone, .opWrite [0] [9] "t"), (fsNone, .opWrite [5] [6] "u"),
          (fsCreateFail, .opBatchWrite [([7], [8])] "t"),
          (fsNone, .opRead [0] "t")]) "t" [0] = true ∧
    tableExistsB
      (run [("t", [([0], [1])])]
        [(fsNone, .opWrite [0] [9] "t"), (fsNone, .opWrite [5] [6] "u"),
          (fsCreateFail, .opBatchWrite [([7], [8])] "t"),
          (fsNone, .opRead [0] "t")]) "t" = true :=
  ⟨(C7_no_deletion
      [(fsNone, .opWrite [0] [9] "t"), (fsNone, .opWrite [5] [6] "u"),
        (fsCreateFail, .opBatchWrite [([7], [8])] "t"),
        (fsNone, .opRead [0] "t")] [("t", [([0], [1])])] "t" [0]).1
      (by decide),
    (C7_no_deletion
      [(fsNone, .opWrite [0] [9] "t"), (fsNone, .opWrite [5] [6] "u"),
        (fsCreateFail, .opBatchWrite [([7], [8])] "t"),
        (fsNone, .opRead [0] "t")] [("t", [([0], [1])])] "t" [0]).2
      (by decide)⟩

/-- C8: N writes with pairwise-distinct keys to one table through
handles sharing the environment, serialized by the single lock in any
completion order (every order is covered by the universally quantified
sequence), leave all N key/value pairs visible in `read_all` — no write
is lost. -/
theorem C8_concurrent_writers (e : Env) (l : List (Bytes × Bytes))
    (tbl : String) (he : envWF e) (hnd : (l.map Prod.fst).Nodup) :
    ∃ m, read_all fsNone (writeMany (clone e) l tbl) tbl = .ok m ∧
      ∀ kv ∈ l, tblGet m kv.1 = some kv.2 := by
  rw [show clone e = e from rfl]
  cases l with
  | nil =>
    refine ⟨_, read_all_fsNone_eq e tbl, ?_⟩
    intro kv hkv
    exact absurd hkv (List.not_mem_nil kv)
  | cons p l2 =>
    have htf := writeMany_table e p l2 tbl
    have hWFt : tblWF (putAll ((envGetTable e tbl).getD []) (p :: l2)) :=
      tblWF_putAll _ (p :: l2) (envWF_getTableD e tbl he)
    refine ⟨putAll ((envGetTable e tbl).getD []) (p :: l2), ?_, ?_⟩
    · rw [read_all_of_getTable_some _ tbl _ htf, putAll_nil_eq _ hWFt]
    · intro kv hkv
      exact tblGet_putAll_mem (p :: l2) _ kv.1 kv.2 hkv hnd

/-- Witness for C8: three writes with distinct keys are all present. -/
theorem C8_witness :
    ∃ m, read_all fsNone
        (writeMany (clone []) [([0], [1]), ([2], [3]), ([4], [5])] "t")
        "t" = .ok m ∧
      ∀ kv ∈ [(([0] : Bytes), ([1] : Bytes)), ([2], [3]), ([4], [5])],
        tblGet m kv.1 = some kv.2 :=
  C8_concurrent_writers [] [([0], [1]), ([2], [3]), ([4], [5])] "t"
    envWF_nil (by decide)

/-- Counterexample to C2 as stated: when `items` repeats a key, a
successful `batch_write` does NOT leave every (key, value) pair of
`items` present — the batch `[([0],[1]), ([0],[2])]` commits, yet the
pair `([0],[1])` is absent from the table (superseded by the later put
on the same key within the transaction). -/
theorem C2_counterexample :
    batch_write fsNone [] [([0], [1]), ([0], [2])] "t" =
      .ok [("t", [([0], [2])])] ∧
    ¬ pairInTable [("t", [([0], [2])])] "t" ([0], [1]) := by
  constructor
  · rfl
  · intro h
    have hm : (([0] : Bytes), ([1] : Bytes)) ∈
        [((([0] : Bytes)), ([2] : Bytes))] := h
    simp at hm

/-- C2 (amended): `batch_write` is all-or-nothing.  On success, every
key occurring in `items` is stored with the value of its last occurrence
in the sequence (batch entries land, overwriting previously committed
values at colliding keys; an earlier occurrence of a repeated key is
superseded inside the same transaction).  On any error — transaction
begin, table creation, any individual put, or commit — the transaction
aborts and the environment is unchanged, so none of the batch's entries
appear. -/
theorem C2_batch_write_atomic (fs : FailSpec) (e : Env)
    (items : List (Bytes × Bytes)) (tbl : String) :
    (∀ eNew, batch_write fs e items tbl = .ok eNew →
      ∀ k v, lastPut items k = some v →
        read fsNone eNew k tbl = .ok (some v)) ∧
    (∀ err, batch_write fs e items tbl = .error err →
      exceptEnv e (batch_write fs e items tbl) = e) := by
  constructor
  · intro eNew h k v hlast
    exact batch_ok_read_lastPut fs e items tbl eNew k v h hlast
  · intro err h
    rw [h]
    rfl

/-- Witness for C2: a committed one-item batch is readable; an aborted
batch (failing table creation) leaves the environment unchanged. -/
theorem C2_witness :
    read fsNone [("t", [([0], [1])])] [0] "t" = .ok (some [1]) ∧
    exceptEnv [] (batch_write fsCreateFail [] [([0], [1])] "t") = [] :=
  ⟨(C2_batch_write_atomic fsNone [] [([0], [1])] "t").1
      [("t", [([0], [1])])] (by rfl) [0] [1] (by rfl),
    (C2_batch_write_atomic fsCreateFail [] [([0], [1])] "t").2
      .tableCreate (by rfl)⟩

/-- Counterexample to C10 as stated: an empty `batch_write` still calls
`create_table`, so with a transaction that opens fine and a commit that
would succeed, a failing `create_table` (e.g. the 100-table cap) makes
the empty batch return an error rather than Ok. -/
theorem C10_counterexample :
    fsCreateFail.beginFail = false ∧ fsCreateFail.commitFail = false ∧
    batch_write fsCreateFail [] [] "t" = .error .tableCreate :=
  ⟨rfl, rfl, rfl⟩

/-- C10 (amended): `batch_write` with an empty items sequence succeeds
whenever the transaction can be opened, the table created or opened, and
the transaction committed; it creates the table (empty) if absent, keeps
its contents if present, and leaves the result of every read on every
key and every table exactly as before. -/
theorem C10_empty_batch (fs : FailSpec) (e : Env) (tbl : String)
    (hb : fs.beginFail = false) (hc : fs.createFail = false)
    (hm : fs.commitFail = false) :
    batch_write fs e [] tbl =
      .ok (envSetTable e tbl ((envGetTable e tbl).getD [])) ∧
    ∀ (k2 : Bytes) (tb2 : String),
      read fsNone (envSetTable e tbl ((envGetTable e tbl).getD []))
        k2 tb2 = read fsNone e k2 tb2 := by
  constructor
  · unfold batch_write
    rw [hb, hc]
    simp only [Bool.false_eq_true, if_false]
    rw [show applyPuts ((envGetTable e tbl).getD []) [] fs.putFails =
      .ok ((envGetTable e tbl).getD []) from rfl]
    rw [hm]
    simp only [Bool.false_eq_true, if_false]
  · intro k2 tb2
    rw [read_fsNone_eq, read_fsNone_eq, envGetTable_envSetTable]
    by_cases ht : tbl = tb2
    · rw [if_pos ht]
      subst ht
      rcases hg : envGetTable e tbl with _ | t <;> rfl
    · rw [if_neg ht]

/-- Witness for C10: the empty batch on an empty environment creates
table "t" empty and changes no read result. -/
theorem C10_witness :
    batch_write fsNone [] [] "t" = .ok [("t", [])] ∧
    read fsNone [("t", ([] : Table))] [0] "t" =
      read fsNone [] [0] "t" :=
  ⟨(C10_empty_batch fsNone [] "t" rfl rfl rfl).1,
    (C10_empty_batch fsNone [] "t" rfl rfl rfl).2 [0] "t"⟩

end TurtleDB
